import Mathlib

/-!
Verification of the redis-purge keyspace enumeration, value matching and
deletion/reconciliation engine.

The Go source is shallowly embedded: byte strings become `List Nat`, redis
keys become `String`, Go int and int64 counters become `Int`, and every
store interaction (DBSize, Scan, value fetch, DEL, EXISTS) becomes an
explicit oracle argument so that a run of the tool is a pure function of
the store behaviour it observes.  Failure of a store call is modelled by
`Option`/`Except` results of the corresponding oracle.
-/

namespace RedisPurge

/-- Embedding of the Go `valueAccessMode` enumeration: values are fetched
either as flat strings or as hashes collapsed to bytes. -/
inductive valueAccessMode where
  | valueAccessString
  | valueAccessHash
deriving DecidableEq, Repr

/-- Embedding of the Go `searchCondition` struct: how to find a Redis value
of interest.  `Search` is the pattern as a byte sequence; `SizeThreshold`
and `Occurrences` are Go ints and may be negative, hence `Int`. -/
structure searchCondition where
  AccessMode : valueAccessMode
  SizeThreshold : Int
  Search : List Nat
  Occurrences : Int
deriving DecidableEq, Repr

/-- Scanner for `bytesCount`: walks the string one byte at a time; after a
match it skips the remaining `pat.length - 1` bytes of the matched
occurrence (tracked by the `skip` counter) so occurrences never overlap. -/
def bytesCountAux (pat : List Nat) : List Nat → Nat → Nat
  | [], _ => 0
  | _ :: rest, Nat.succ n => bytesCountAux pat rest n
  | b :: rest, 0 =>
    if pat.isPrefixOf (b :: rest) then
      1 + bytesCountAux pat rest (pat.length - 1)
    else
      bytesCountAux pat rest 0

/-- Embedding of Go `bytes.Count(s, pat)` for the way the matcher calls it:
the number of non-overlapping, leftmost-first occurrences of `pat` in `s`.
The matcher only ever calls this with a non-empty `pat` (it short-circuits
on an empty pattern before counting). -/
def bytesCount (pat s : List Nat) : Nat :=
  bytesCountAux pat s 0

/-- Embedding of `searchCondition.Matcher`: the predicate the returned
closure applies to a fetched value.  Evaluation order mirrors the source:
size fast-reject, then empty-pattern acceptance, then exact match when
`Occurrences <= 0`, otherwise the non-overlapping occurrence count. -/
def searchCondition.Matcher (s : searchCondition) (value : List Nat) : Bool :=
  if (value.length : Int) < s.SizeThreshold then
    false
  else if s.Search.length = 0 then
    true
  else if s.Occurrences ≤ 0 then
    decide (value = s.Search)
  else
    decide (s.Occurrences ≤ (bytesCount s.Search value : Int))

/-- Embedding of the per-key body of `matchingKeysDo`: walk the enumerated
keys in order; fetch each value through the `fetch` oracle (`none` models a
fetch error, which is skipped with a diagnostic); invoke the action on each
key whose value satisfies the matcher.  The result is the ordered list of
(key, value) pairs the action is invoked on — the actions used by this
program (list, initial delete pass) never return an error, so they cannot
abort the walk. -/
def collectMatches (cond : searchCondition) (fetch : String → Option (List Nat)) :
    List String → List (String × List Nat)
  | [] => []
  | k :: rest =>
    match fetch k with
    | none => collectMatches cond fetch rest
    | some v =>
      if cond.Matcher v then
        (k, v) :: collectMatches cond fetch rest
      else
        collectMatches cond fetch rest

/-- Embedding of the SCAN loop of `matchingKeysDo`: the store serves the
keyspace as a sequence of cursor batches, processed in order until the
cursor returns to 0 (modelled by the list of batches being exhausted). -/
def scanBatches (cond : searchCondition) (fetch : String → Option (List Nat)) :
    List (List String) → List (String × List Nat)
  | [] => []
  | batch :: rest => collectMatches cond fetch batch ++ scanBatches cond fetch rest

/-- Embedding of `matchingKeysDo`: first `countKeys` (DBSize) is called;
`countResult = none` models a DBSize failure, which the source turns into
an immediate error return before any key is visited.  On success the
returned total is used only inside the progress Fprintf (an external sink),
so it is discarded here, and the scan loop runs to completion, producing
the ordered action trace. -/
def matchingKeysDo (countResult : Option Int) (batches : List (List String))
    (fetch : String → Option (List Nat)) (cond : searchCondition) :
    Option (List (String × List Nat)) :=
  match countResult with
  | none => none
  | some _totalKeys => some (scanBatches cond fetch batches)

/-- The running totals of `deleteMatchingKeys`, together with the
`deletedKeys` slice it accumulates for the reconciliation loop. -/
structure DeleteSummary where
  deletedKeys : List String
  deletedKeyCount : Int
  deletedValuesTotalSize : Int
  failedDeleteCount : Int
deriving DecidableEq, Repr

/-- Embedding of the per-matched-key closure of `deleteMatchingKeys`
(part_002 variant): the key is appended to `deletedKeys` before the DEL
call; a failed DEL (`delOk key = false`) increments `failedDeleteCount`
and the run continues; a successful DEL increments `deletedKeyCount` and
adds the value size to the total. -/
def deleteStep (delOk : String → Bool) (acc : DeleteSummary)
    (kv : String × List Nat) : DeleteSummary :=
  let acc1 : DeleteSummary := { acc with deletedKeys := acc.deletedKeys ++ [kv.1] }
  if delOk kv.1 then
    { acc1 with
        deletedKeyCount := acc1.deletedKeyCount + 1,
        deletedValuesTotalSize := acc1.deletedValuesTotalSize + (kv.2.length : Int) }
  else
    { acc1 with failedDeleteCount := acc1.failedDeleteCount + 1 }

/-- The initial deletion pass of `deleteMatchingKeys`: fold the closure over
the matched (key, value) trace in enumeration order. -/
def initialPass (delOk : String → Bool) (pairs : List (String × List Nat)) :
    DeleteSummary :=
  pairs.foldl (deleteStep delOk) ⟨[], 0, 0, 0⟩

/-- Errors a reconciliation pass can raise; both are fatal in the source
(`deleteKeys` returns them and `repeatDeleteKeys` propagates them). -/
inductive PassError where
  | existsCheckFailed (key : String)
  | deleteFailed (key : String)
deriving DecidableEq, Repr

/-- Observable outcome of one reconciliation pass over the key set:
`found` is the `foundKeys` flag, `checked` the keys whose EXISTS check ran
and returned, `deleted` the keys re-deleted (DEL issued after EXISTS
reported presence). -/
structure PassTrace where
  found : Bool
  checked : List String
  deleted : List String
deriving DecidableEq, Repr

/-- Embedding of the loop body of `deleteKeys`: for each key, run the
EXISTS oracle (`none` models an EXISTS failure → fatal error); skip absent
keys; for a present key set `found`, issue DEL (`delOk key = false` models
a DEL failure → fatal error). -/
def deleteKeysGo (ex : String → Option Bool) (delOk : String → Bool) :
    List String → PassTrace → Except PassError PassTrace
  | [], acc => .ok acc
  | k :: rest, acc =>
    match ex k with
    | none => .error (.existsCheckFailed k)
    | some kx =>
      let acc1 : PassTrace := { acc with checked := acc.checked ++ [k] }
      if kx then
        if delOk k then
          deleteKeysGo ex delOk rest
            { acc1 with found := true, deleted := acc1.deleted ++ [k] }
        else
          .error (.deleteFailed k)
      else
        deleteKeysGo ex delOk rest acc1

/-- Embedding of `deleteKeys`: one reconciliation pass over the whole key
set, starting from `foundKeys = false` and empty traces. -/
def deleteKeys (ex : String → Option Bool) (delOk : String → Bool)
    (keys : List String) : Except PassError PassTrace :=
  deleteKeysGo ex delOk keys ⟨false, [], []⟩

/-- Counters of `repeatDeleteKeys` at loop exit: `deletePass` is the number
of passes executed, `cleanDeletePass` the consecutive-clean counter. -/
structure ReconResult where
  deletePass : Nat
  cleanDeletePass : Nat
deriving DecidableEq, Repr

/-- Embedding of the `repeatDeleteKeys` loop.  The EXISTS and DEL oracles
are indexed by the pass number so the store may change between passes
(racing writers).  The loop has no bound in the source; `fuel` bounds the
number of passes this model will unfold, and `none` means the real loop
would still be running after `fuel` passes.  State: `cleanPass` is
`cleanDeletePass`, `passNo` is `deletePass`; a dirty pass resets
`cleanPass` to 0, a clean pass increments it, and the loop exits as soon
as `minClean ≤ cleanPass`. -/
def repeatDeleteKeysAux (ex : Nat → String → Option Bool)
    (delOk : Nat → String → Bool) (keys : List String) (minClean : Int)
    (fuel cleanPass passNo : Nat) : Option (Except PassError ReconResult) :=
  if minClean ≤ (cleanPass : Int) then
    some (.ok ⟨passNo, cleanPass⟩)
  else
    match fuel with
    | 0 => none
    | fuel1 + 1 =>
      match deleteKeys (ex (passNo + 1)) (delOk (passNo + 1)) keys with
      | .error e => some (.error e)
      | .ok t =>
        if t.found then
          repeatDeleteKeysAux ex delOk keys minClean fuel1 0 (passNo + 1)
        else
          repeatDeleteKeysAux ex delOk keys minClean fuel1 (cleanPass + 1) (passNo + 1)

/-- Embedding of `repeatDeleteKeys`: both counters start at 0. -/
def repeatDeleteKeys (ex : Nat → String → Option Bool)
    (delOk : Nat → String → Bool) (keys : List String) (minClean : Int)
    (fuel : Nat) : Option (Except PassError ReconResult) :=
  repeatDeleteKeysAux ex delOk keys minClean fuel 0 0

/-- The observable outcome of a `deleteMatchingKeys` run: the accumulated
summary, the key list handed to `repeatDeleteKeys` (`none` when
reconciliation was not requested), and the reconciliation outcome. -/
structure PurgeRun where
  summary : DeleteSummary
  handedKeys : Option (List String)
  recon : Option (Option (Except PassError ReconResult))
deriving Repr

/-- Embedding of `deleteMatchingKeys` (part_002 variant): run the
enumeration/match/delete pass; a `countKeys` failure aborts the whole run
(`none`).  When `repeatDeletes` is set and the pass finished without a
fatal error, hand `summary.deletedKeys` to `repeatDeleteKeys`. -/
def deleteMatchingKeys (countResult : Option Int) (batches : List (List String))
    (fetch : String → Option (List Nat)) (cond : searchCondition)
    (delOk : String → Bool) (repeatDeletes : Bool)
    (exR : Nat → String → Option Bool) (delOkR : Nat → String → Bool)
    (minClean : Int) (fuel : Nat) : Option PurgeRun :=
  match matchingKeysDo countResult batches fetch cond with
  | none => none
  | some pairs =>
    let summary := initialPass delOk pairs
    if repeatDeletes then
      some ⟨summary, some summary.deletedKeys,
            some (repeatDeleteKeys exR delOkR summary.deletedKeys minClean fuel)⟩
    else
      some ⟨summary, none, none⟩

/-- Embedding of `percentage`: progress ratio, guarded against a zero
denominator.  Go float64 arithmetic is modelled over `Rat`; the guarded
branch returns the literal 0.0 without dividing, which is the property of
interest. -/
def percentage (num den : Int) : Rat :=
  if den = 0 then 0 else (num : Rat) * 100 / (den : Rat)

/-- Embedding of `average`: mean value size, guarded against a zero
denominator exactly like `percentage`. -/
def average (sum n : Int) : Rat :=
  if n = 0 then 0 else (sum : Rat) / (n : Rat)

/-- Helper: the `deletedKeys` slice accumulated by the initial deletion
pass records every matched key in order, whether or not its DEL
succeeded — both branches of the closure append the key first. -/
theorem foldl_deleteStep_deletedKeys (delOk : String → Bool)
    (pairs : List (String × List Nat)) (acc : DeleteSummary) :
    (pairs.foldl (deleteStep delOk) acc).deletedKeys
      = acc.deletedKeys ++ pairs.map Prod.fst := by
  induction pairs generalizing acc with
  | nil => simp
  | cons kv rest ih =>
    rw [List.foldl_cons, ih]
    by_cases h : delOk kv.1 <;> simp [deleteStep, h]

/-- C3: for every non-empty pattern `p` with `minOccurrences = 0` (and the
default size threshold 0), the matcher accepts a value `v` iff `v` equals
`p` byte-for-byte; moreover, for every size threshold and every
non-positive `Occurrences` setting, an accepted value is always exactly
equal to `p` — so no proper superstring of `p` and no value distinct from
`p` ever matches. -/
theorem matcher_exact_match (m : valueAccessMode) (p v : List Nat) (t o : Int)
    (hp : p ≠ []) (ho : o ≤ 0) :
    (searchCondition.Matcher ⟨m, 0, p, 0⟩ v = true ↔ v = p) ∧
    (searchCondition.Matcher ⟨m, t, p, o⟩ v = true → v = p) := by
  have hlen : ¬ p.length = 0 := by simpa [List.length_eq_zero] using hp
  have hv : ¬ ((v.length : Int) < (0 : Int)) := not_lt.mpr (Int.natCast_nonneg _)
  constructor
  · simp [searchCondition.Matcher, hv, hlen]
  · intro h
    by_cases hc : (v.length : Int) < t
    · simp [searchCondition.Matcher, hc] at h
    · simpa [searchCondition.Matcher, hc, hlen, ho] using h

theorem matcher_exact_match_witness :
    searchCondition.Matcher ⟨.valueAccessHash, 0, [110], 0⟩ [110] = true :=
  (matcher_exact_match .valueAccessHash [110] [110] 0 0 (by decide)
    (by decide)).1.mpr rfl

/-- C4: for every non-empty pattern `p` and `minOccurrences = n > 0` (with
the default size threshold 0), the matcher accepts `v` iff the number of
non-overlapping occurrences of `p` in `v` is at least `n`. -/
theorem matcher_occurrence_count (m : valueAccessMode) (p v : List Nat) (n : Int)
    (hp : p ≠ []) (hn : 0 < n) :
    searchCondition.Matcher ⟨m, 0, p, n⟩ v = true ↔
      n ≤ (bytesCount p v : Int) := by
  have hlen : ¬ p.length = 0 := by simpa [List.length_eq_zero] using hp
  have hv : ¬ ((v.length : Int) < (0 : Int)) := not_lt.mpr (Int.natCast_nonneg _)
  have hno : ¬ n ≤ 0 := not_le.mpr hn
  simp [searchCondition.Matcher, hv, hlen, hno]

theorem matcher_occurrence_count_witness :
    searchCondition.Matcher ⟨.valueAccessHash, 0, [97, 98], 2⟩
        [97, 98, 97, 98, 97, 98] = true ∧
    bytesCount [97, 98] [97, 98, 97, 98, 97, 98] = 3 :=
  ⟨(matcher_occurrence_count .valueAccessHash [97, 98] [97, 98, 97, 98, 97, 98] 2
      (by decide) (by decide)).mpr (by decide), by decide⟩

/-- C8: for every condition and every value `v` with `len(v)` below the
size threshold, the matcher rejects `v`, whatever the pattern and the
occurrence settings — the size check is the first test applied. -/
theorem matcher_size_fast_reject (s : searchCondition) (v : List Nat)
    (h : (v.length : Int) < s.SizeThreshold) :
    s.Matcher v = false := by
  simp [searchCondition.Matcher, h]

theorem matcher_size_fast_reject_witness :
    searchCondition.Matcher ⟨.valueAccessHash, 10, [], 5⟩ [1, 2, 3] = false :=
  matcher_size_fast_reject ⟨.valueAccessHash, 10, [], 5⟩ [1, 2, 3] (by decide)

/-- C10: the end-of-run summary arithmetic is total: `average` returns 0
when the key count is 0, `percentage` returns 0 when the total key count
is 0, and in particular the summary of a run with no matched keys has
average size 0 — no division by zero occurs on an empty keyspace or a run
with no matches. -/
theorem summary_division_total (s n : Int) (d : String → Bool) :
    average s 0 = 0 ∧ percentage n 0 = 0 ∧
    average (initialPass d []).deletedValuesTotalSize
      (initialPass d []).deletedKeyCount = 0 :=
  ⟨by simp [average], by simp [percentage], by simp [initialPass, average]⟩

/-- C7 (amended): the total-key-count estimate obtained up front affects
neither the matched/deleted trace nor the outcome as long as the DBSize
call succeeds — its value feeds only progress reporting; however, contrary
to the original claim, a DBSize failure is fatal: `matchingKeysDo` aborts
before visiting any key. -/
theorem key_count_progress_only (t1 t2 : Int) (batches : List (List String))
    (fetch : String → Option (List Nat)) (cond : searchCondition) :
    matchingKeysDo (some t1) batches fetch cond
      = matchingKeysDo (some t2) batches fetch cond ∧
    matchingKeysDo (some t1) batches fetch cond
      = some (scanBatches cond fetch batches) ∧
    matchingKeysDo none batches fetch cond = none :=
  ⟨rfl, rfl, rfl⟩

/-- C7 counterexample: on a store with one key "k" whose value matches,
a failed key-count call makes the run abort with an error (nothing visited,
nothing matched), while the identical store with a successful key-count
yields the match — the run outcome is not independent of the key-count
call's success, refuting the claim as stated. -/
theorem key_count_failure_changes_outcome :
    matchingKeysDo none [["k"]] (fun _ => some [0])
        ⟨.valueAccessHash, 0, [], 0⟩ = none ∧
    matchingKeysDo (some 1) [["k"]] (fun _ => some [0])
        ⟨.valueAccessHash, 0, [], 0⟩ = some [("k", [0])] ∧
    matchingKeysDo none [["k"]] (fun _ => some [0]) ⟨.valueAccessHash, 0, [], 0⟩
      ≠ matchingKeysDo (some 1) [["k"]] (fun _ => some [0])
          ⟨.valueAccessHash, 0, [], 0⟩ :=
  ⟨rfl, rfl, by simp [matchingKeysDo]⟩

/-- C9: a value-fetch failure for a single key is never fatal: the failing
key is skipped (the walk over the remaining keys is unchanged), no action
is ever invoked for it, the matched trace is exactly the one obtained with
the failing key removed from the enumeration, and the run still completes
normally (`matchingKeysDo` returns the full trace whenever the key count
succeeded). -/
theorem fetch_failure_skips (cond : searchCondition)
    (fetch : String → Option (List Nat)) (k0 : String)
    (hf : fetch k0 = none) :
    (∀ rest : List String,
       collectMatches cond fetch (k0 :: rest) = collectMatches cond fetch rest) ∧
    (∀ keys : List String,
       collectMatches cond fetch keys
         = collectMatches cond fetch (keys.filter (fun k => !(k == k0)))) ∧
    (∀ (keys : List String) (v : List Nat),
       (k0, v) ∉ collectMatches cond fetch keys) ∧
    (∀ (t : Int) (batches : List (List String)),
       matchingKeysDo (some t) batches fetch cond
         = some (scanBatches cond fetch batches)) := by
  refine ⟨?_, ?_, ?_, fun t batches => rfl⟩
  · intro rest
    simp [collectMatches, hf]
  · intro keys
    induction keys with
    | nil => rfl
    | cons k rest ih =>
      by_cases hk : k = k0
      · subst hk
        simp [collectMatches, hf, ih]
      · have hne : (k == k0) = false := by
          simpa using hk
        cases hfk : fetch k with
        | none => simp [collectMatches, hfk, List.filter_cons, hne, ih]
        | some v => simp [collectMatches, hfk, List.filter_cons, hne, ih]
  · intro keys v
    induction keys with
    | nil => simp [collectMatches]
    | cons k rest ih =>
      cases hfk : fetch k with
      | none => simpa [collectMatches, hfk] using ih
      | some w =>
        have hkk : ¬ k0 = k := by
          intro he
          rw [← he, hf] at hfk
          exact Option.noConfusion hfk
        by_cases hm : cond.Matcher w
        · simp [collectMatches, hfk, hm, ih, hkk]
        · simpa [collectMatches, hfk, hm] using ih

theorem fetch_failure_skips_witness :
    collectMatches ⟨.valueAccessHash, 0, [], 0⟩
        (fun k => if k = "bad" then none else some [0]) ["bad", "a"]
      = collectMatches ⟨.valueAccessHash, 0, [], 0⟩
          (fun k => if k = "bad" then none else some [0]) ["a"] :=
  (fetch_failure_skips ⟨.valueAccessHash, 0, [], 0⟩
      (fun k => if k = "bad" then none else some [0]) "bad" (by simp)).1 ["a"]

/-- C2 (amended): when reconciliation is requested and the initial pass
completes without a fatal enumeration error, the key list handed to
`repeatDeleteKeys` is the ordered list of ALL matched keys of the initial
pass — in enumeration order, but including matched keys whose DEL call
failed (the source appends the key before attempting the DEL). -/
theorem deleted_key_set_is_all_matched (countTotal : Int)
    (batches : List (List String)) (fetch : String → Option (List Nat))
    (cond : searchCondition) (delOk : String → Bool)
    (exR : Nat → String → Option Bool) (delOkR : Nat → String → Bool)
    (minClean : Int) (fuel : Nat) :
    (initialPass delOk (scanBatches cond fetch batches)).deletedKeys
      = (scanBatches cond fetch batches).map Prod.fst ∧
    deleteMatchingKeys (some countTotal) batches fetch cond delOk true
        exR delOkR minClean fuel
      = some ⟨initialPass delOk (scanBatches cond fetch batches),
              some ((scanBatches cond fetch batches).map Prod.fst),
              some (repeatDeleteKeys exR delOkR
                ((scanBatches cond fetch batches).map Prod.fst) minClean fuel)⟩ := by
  have h1 : (initialPass delOk (scanBatches cond fetch batches)).deletedKeys
      = (scanBatches cond fetch batches).map Prod.fst := by
    simpa [initialPass] using
      foldl_deleteStep_deletedKeys delOk (scanBatches cond fetch batches) ⟨[], 0, 0, 0⟩
  refine ⟨h1, ?_⟩
  simp only [deleteMatchingKeys, matchingKeysDo, if_pos]
  rw [h1]

/-- C2 counterexample: a store with the single key "k", whose value
matches, and whose DEL call fails.  The summary records 0 deleted keys and
1 failed delete, yet "k" is handed to the reconciliation loop — so the set
handed over is not the set of successfully deleted keys, refuting the
claim that a matched key whose initial delete failed is excluded. -/
theorem deleted_key_set_includes_failed_delete :
    deleteMatchingKeys (some 1) [["k"]] (fun _ => some [0])
        ⟨.valueAccessHash, 0, [], 0⟩ (fun _ => false) true
        (fun _ _ => some false) (fun _ _ => true) 1 1
      = some ⟨⟨["k"], 0, 0, 1⟩, some ["k"], some (some (.ok ⟨1, 1⟩))⟩ := rfl

/-- Helper: an error-free reconciliation pass (every EXISTS check answers
`some (e k)`, every DEL on an existing key succeeds) checks each key in
order, deletes exactly the keys that exist, and reports `foundKeys` iff
some key exists. -/
theorem deleteKeysGo_spec (ex : String → Option Bool) (delOk : String → Bool)
    (e : String → Bool) :
    ∀ (keys : List String) (acc : PassTrace),
    (∀ k, k ∈ keys → ex k = some (e k)) →
    (∀ k, k ∈ keys → e k = true → delOk k = true) →
    deleteKeysGo ex delOk keys acc
      = .ok ⟨acc.found || keys.any e, acc.checked ++ keys,
             acc.deleted ++ keys.filter e⟩ := by
  intro keys
  induction keys with
  | nil =>
    intro acc _ _
    simp [deleteKeysGo]
  | cons k rest ih =>
    intro acc hex hdel
    have hk : ex k = some (e k) := hex k (by simp)
    have hexr : ∀ k1, k1 ∈ rest → ex k1 = some (e k1) := by
      intro k1 h1
      exact hex k1 (by simp [h1])
    have hdelr : ∀ k1, k1 ∈ rest → e k1 = true → delOk k1 = true := by
      intro k1 h1
      exact hdel k1 (by simp [h1])
    simp only [deleteKeysGo, hk]
    by_cases hke : e k = true
    · have hd : delOk k = true := hdel k (by simp) hke
      rw [if_pos hke, if_pos hd, ih _ hexr hdelr]
      simp [hke, List.filter_cons, List.any_cons]
    · have hke2 : e k = false := by
        simpa using hke
      rw [hke2, if_neg (by simp), ih _ hexr hdelr]
      simp [hke2, List.filter_cons, List.any_cons]

/-- Helper: `deleteKeys` form of `deleteKeysGo_spec`, starting from the
initial `foundKeys = false` and empty traces. -/
theorem deleteKeys_spec (ex : String → Option Bool) (delOk : String → Bool)
    (e : String → Bool) (keys : List String)
    (hex : ∀ k, k ∈ keys → ex k = some (e k))
    (hdel : ∀ k, k ∈ keys → e k = true → delOk k = true) :
    deleteKeys ex delOk keys = .ok ⟨keys.any e, keys, keys.filter e⟩ := by
  have := deleteKeysGo_spec ex delOk e keys ⟨false, [], []⟩ hex hdel
  simpa [deleteKeys] using this

/-- Helper: a pass on which every tracked key is absent is clean: every
key is checked, nothing is deleted, and `foundKeys` is false. -/
theorem deleteKeys_all_absent (ex : String → Option Bool) (delOk : String → Bool)
    (keys : List String) (h : ∀ k, k ∈ keys → ex k = some false) :
    deleteKeys ex delOk keys = .ok ⟨false, keys, []⟩ := by
  have hany : (keys.any fun _ => false) = false := by
    simp
  have hfil : (keys.filter fun _ => false) = [] := by
    simp
  have hspec := deleteKeys_spec ex delOk (fun _ => false) keys
      (by intro k hk; simpa using h k hk) (by intro k _ hfalse; cases hfalse)
  rw [hany, hfil] at hspec
  exact hspec

/-- C5: the reconciliation pass/counter transition rule.  On an error-free
pass, every key of `K` has its existence checked, exactly the keys found
to exist are re-deleted, and the pass is dirty (`foundKeys`) iff some key
exists; in `repeatDeleteKeys`, while below the clean-pass threshold, a
dirty pass resets the consecutive-clean counter to 0 and a clean pass
increments it by 1 (the pass number advancing by 1 either way). -/
theorem reconciliation_pass_transition (ex : String → Option Bool)
    (delOk : String → Bool) (keys : List String) (e : String → Bool)
    (hex : ∀ k, k ∈ keys → ex k = some (e k))
    (hdel : ∀ k, k ∈ keys → e k = true → delOk k = true) :
    deleteKeys ex delOk keys = .ok ⟨keys.any e, keys, keys.filter e⟩ ∧
    (∀ (exN : Nat → String → Option Bool) (delOkN : Nat → String → Bool)
       (minClean : Int) (fuel cleanPass passNo : Nat) (t : PassTrace),
       (cleanPass : Int) < minClean →
       deleteKeys (exN (passNo + 1)) (delOkN (passNo + 1)) keys = .ok t →
       repeatDeleteKeysAux exN delOkN keys minClean (fuel + 1) cleanPass passNo
         = repeatDeleteKeysAux exN delOkN keys minClean fuel
             (if t.found then 0 else cleanPass + 1) (passNo + 1)) := by
  refine ⟨deleteKeys_spec ex delOk e keys hex hdel, ?_⟩
  intro exN delOkN minClean fuel cleanPass passNo t hlt ht
  rw [repeatDeleteKeysAux.eq_def, if_neg (not_le.mpr hlt), ht]
  by_cases hfound : t.found <;> simp [hfound]

theorem reconciliation_pass_transition_witness :
    deleteKeys (fun k => some (k == "b")) (fun _ => true) ["a", "b"]
      = .ok ⟨(["a", "b"].any fun k => k == "b"), ["a", "b"],
             (["a", "b"].filter fun k => k == "b")⟩ :=
  (reconciliation_pass_transition (fun k => some (k == "b")) (fun _ => true)
      ["a", "b"] (fun k => k == "b") (fun _ _ => rfl) (fun _ _ _ => rfl)).1

/-- Helper: when every existence check reports absent, the reconciliation
loop runs exactly the remaining `d` clean passes it needs and exits with
the counter at the threshold. -/
theorem repeatDeleteKeysAux_all_clean (ex : Nat → String → Option Bool)
    (delOk : Nat → String → Bool) (keys : List String) (minClean : Int)
    (habsent : ∀ n k, k ∈ keys → ex n k = some false)
    (hmin : 0 ≤ minClean) :
    ∀ (d fuel cleanPass passNo : Nat),
    minClean.toNat = cleanPass + d →
    d ≤ fuel →
    repeatDeleteKeysAux ex delOk keys minClean fuel cleanPass passNo
      = some (.ok ⟨passNo + d, minClean.toNat⟩) := by
  intro d
  induction d with
  | zero =>
    intro fuel cleanPass passNo hd _
    rw [repeatDeleteKeysAux.eq_def, if_pos (by omega)]
    have : cleanPass = minClean.toNat := by omega
    simp [this]
  | succ d ih =>
    intro fuel cleanPass passNo hd hfuel
    have hlt : ¬ (minClean ≤ (cleanPass : Int)) := by omega
    obtain ⟨fuel1, rfl⟩ : ∃ f, fuel = f + 1 := ⟨fuel - 1, by omega⟩
    rw [repeatDeleteKeysAux.eq_def, if_neg hlt,
      deleteKeys_all_absent (ex (passNo + 1)) (delOk (passNo + 1)) keys
        (habsent (passNo + 1))]
    have hrec := ih fuel1 (cleanPass + 1) (passNo + 1) (by omega) (by omega)
    simpa [hrec] using by omega

/-- C1: reconciliation convergence.  If no external writer resurrects any
key of `K` (every EXISTS check during reconciliation reports the key
absent), the loop terminates after exactly `minCleanPasses` passes, with
the consecutive-clean counter equal to `minCleanPasses` at exit, and every
pass — in particular the final one — checks all of `K`, finds no key
existing and deletes nothing. -/
theorem reconciliation_convergence (ex : Nat → String → Option Bool)
    (delOk : Nat → String → Bool) (keys : List String) (minClean : Int)
    (fuel : Nat)
    (habsent : ∀ n k, k ∈ keys → ex n k = some false)
    (hmin : 0 ≤ minClean) (hfuel : minClean.toNat ≤ fuel) :
    repeatDeleteKeys ex delOk keys minClean fuel
      = some (.ok ⟨minClean.toNat, minClean.toNat⟩) ∧
    ∀ n, deleteKeys (ex n) (delOk n) keys = .ok ⟨false, keys, []⟩ := by
  constructor
  · have h := repeatDeleteKeysAux_all_clean ex delOk keys minClean habsent hmin
      minClean.toNat fuel 0 0 (by omega) hfuel
    simpa [repeatDeleteKeys] using h
  · intro n
    exact deleteKeys_all_absent (ex n) (delOk n) keys (habsent n)

theorem reconciliation_convergence_witness :
    repeatDeleteKeys (fun _ _ => some false) (fun _ _ => true) ["k"] 2 2
      = some (.ok ⟨2, 2⟩) :=
  (reconciliation_convergence (fun _ _ => some false) (fun _ _ => true) ["k"] 2 2
      (fun _ _ _ => rfl) (by decide) (by decide)).1

/-- C6: a DEL failure on a single matched key during the initial pass is
local: the fold continues with the remaining matched keys, the
failed-delete counter grows by exactly 1 and the deleted count and total
size are unchanged for that key; whereas inside the reconciliation loop a
DEL failure on a resurrected key makes the pass return an error which
`repeatDeleteKeys` propagates, aborting the run. -/
theorem delete_failure_handling (delOk : String → Bool) (k : String)
    (v : List Nat) (pairs : List (String × List Nat)) (acc : DeleteSummary)
    (hfail : delOk k = false)
    (ex : String → Option Bool) (delOkR : String → Bool) (keys : List String)
    (hex : ex k = some true) (hdelR : delOkR k = false) :
    (List.foldl (deleteStep delOk) acc ((k, v) :: pairs)
       = List.foldl (deleteStep delOk)
           { acc with
               deletedKeys := acc.deletedKeys ++ [k],
               failedDeleteCount := acc.failedDeleteCount + 1 } pairs) ∧
    (deleteStep delOk acc (k, v)).failedDeleteCount = acc.failedDeleteCount + 1 ∧
    (deleteStep delOk acc (k, v)).deletedKeyCount = acc.deletedKeyCount ∧
    (deleteStep delOk acc (k, v)).deletedValuesTotalSize
      = acc.deletedValuesTotalSize ∧
    (∀ acc2 : PassTrace,
       deleteKeysGo ex delOkR (k :: keys) acc2 = .error (.deleteFailed k)) ∧
    (∀ (exN : Nat → String → Option Bool) (delOkN : Nat → String → Bool)
       (keys2 : List String) (minClean : Int) (fuel cleanPass passNo : Nat)
       (err : PassError),
       (cleanPass : Int) < minClean →
       deleteKeys (exN (passNo + 1)) (delOkN (passNo + 1)) keys2 = .error err →
       repeatDeleteKeysAux exN delOkN keys2 minClean (fuel + 1) cleanPass passNo
         = some (.error err)) := by
  refine ⟨?_, ?_, ?_, ?_, ?_, ?_⟩
  · rw [List.foldl_cons]
    congr 1
    simp [deleteStep, hfail]
  · simp [deleteStep, hfail]
  · simp [deleteStep, hfail]
  · simp [deleteStep, hfail]
  · intro acc2
    simp [deleteKeysGo, hex, hdelR]
  · intro exN delOkN keys2 minClean fuel cleanPass passNo err hlt herr
    rw [repeatDeleteKeysAux.eq_def, if_neg (not_le.mpr hlt), herr]

theorem delete_failure_handling_witness :
    (deleteStep (fun _ => false) ⟨[], 0, 0, 0⟩ ("k", [7])).failedDeleteCount
      = 0 + 1 ∧
    deleteKeysGo (fun _ => some true) (fun _ => false) ["k"] ⟨false, [], []⟩
      = .error (.deleteFailed "k") := by
  have h := delete_failure_handling (fun _ => false) "k" [7] [] ⟨[], 0, 0, 0⟩ rfl
      (fun _ => some true) (fun _ => false) [] rfl rfl
  exact ⟨h.2.1, h.2.2.2.2.1 ⟨false, [], []⟩⟩

end RedisPurge
